import Mathlib

/-!
Verification of the `accumulators` library: a shallow embedding of the
accumulate protocol (sources, the `end` token, the dispatcher and the
combinators) together with proofs of the specified properties.

Sources are modelled as an inductive type `Src`; a reducing function
(`next` in the JavaScript) is modelled as a pure step function over an
explicit state type `σ`, `σ → JSVal → JSVal → σ × JSVal`, taking the
accumulated value and the item and returning the new state and the new
accumulated value.  Driving a source (`accumulate`) threads the machine
state and returns the final state; the JavaScript `accumulate` returns
`undefined`, so the accumulated result is observable only through the
calls made to `next`, which is exactly what the state records.
-/

/-- JavaScript primitive values, the item domain of the library. -/
inductive JSVal where
  | num : Int → JSVal
  | str : String → JSVal
  | bool : Bool → JSVal
  | null : JSVal
  | undefined : JSVal
deriving DecidableEq, Repr

/-- The end token of the library:
`var end = 'Token for end of accumulation';` (a plain string). -/
def endToken : JSVal := .str "Token for end of accumulation"

/-- JavaScript strict equality `===` restricted to primitive values:
for primitives, `===` compares by value. -/
def jsStrictEq (a b : JSVal) : Bool := a == b

/-- Numeric addition on values, used as a sample reducing function. -/
def jsAdd (a b : JSVal) : JSVal :=
  match a, b with
  | .num x, .num y => .num (x + y)
  | _, _ => .undefined

/-- A single step of a synchronous fold (`Array.prototype.reduce`) with a
reducing machine: the machine receives the accumulated value and the item. -/
def foldStep {σ : Type} (step : σ → JSVal → JSVal → σ × JSVal) :
    σ × JSVal → JSVal → σ × JSVal :=
  fun p i => step p.1 p.2 i

/-- The reducing function built by the transformation combinator
`accumulator(xf)`:
`return item === end ? next(accumulated, item) : xf(additional, next, accumulated, item);`
where the per-item transform either emits one transformed value
(`some v`, calling `next`) or skips the item (`none`, returning the
accumulated value unchanged). -/
def xformNext {σ : Type} (act : JSVal → Option JSVal)
    (step : σ → JSVal → JSVal → σ × JSVal) :
    σ → JSVal → JSVal → σ × JSVal :=
  fun st a i =>
    if i = endToken then step st a i
    else
      match act i with
      | some v => step st a v
      | none => (st, a)

/-- `nextTake` from `take(source, n)`; the closure variable `count` is the
`Int` component of the state. -/
def takeNext {σ : Type} (step : σ → JSVal → JSVal → σ × JSVal) :
    Int × σ → JSVal → JSVal → (Int × σ) × JSVal :=
  fun p a i =>
    let c := p.1 - 1
    if c < 0 then ((c, p.2), endToken)
    else
      let q := step p.2 a i
      if c = 0 then
        let q2 := step q.1 q.2 endToken
        ((c, q2.1), q2.2)
      else ((c, q.1), q.2)

/-- `nextDrop` from `drop(source, n)`; the closure variable `count` is the
`Int` component of the state. -/
def dropNext {σ : Type} (step : σ → JSVal → JSVal → σ × JSVal) :
    Int × σ → JSVal → JSVal → (Int × σ) × JSVal :=
  fun p a i =>
    if p.1 = 0 ∨ i = endToken then
      let q := step p.2 a i
      ((p.1, q.1), q.2)
    else ((p.1 - 1, p.2), a)

/-- `nextReduction` from `reductions(source, xf, initial)`; the closure
variable `reduction` is the `JSVal` component of the state.  Note the code
updates `reduction = xf(reduction, item)` before testing for the end
token, so `xf` is applied to the end token as well. -/
def redNext {σ : Type} (f : JSVal → JSVal → JSVal)
    (step : σ → JSVal → JSVal → σ × JSVal) :
    JSVal × σ → JSVal → JSVal → (JSVal × σ) × JSVal :=
  fun p a i =>
    let r := f p.1 i
    if i = endToken then
      let q := step p.2 a endToken
      ((r, q.1), q.2)
    else
      let q := step p.2 a r
      ((r, q.1), q.2)

/-- Sources of the library.  `arr` is a JavaScript array (a value with a
`reduce` method); `val` is any other plain value (the dispatcher treats
nullish values as empty sources); the remaining constructors are the
accumulatable objects produced by the combinators. -/
inductive Src where
  | arr : List JSVal → Src
  | val : JSVal → Src
  | xform : (JSVal → Option JSVal) → Src → Src
  | takeA : Int → Src → Src
  | dropA : Int → Src → Src
  | append : Src → Src → Src
  | reductionsA : (JSVal → JSVal → JSVal) → JSVal → Src → Src
  | sampleA : Src → Src → (JSVal → JSVal → JSVal) → Src

/-- `accumulate(source, next, initial)`:
dispatches on the source (accumulatable method / `reduce` method /
nullish / plain value) and drives it, threading the machine state of the
reducing function.  Returns the final machine state (the JavaScript
function returns `undefined`; all results flow through `next`). -/
def drive (s : Src) {σ : Type} (step : σ → JSVal → JSVal → σ × JSVal)
    (st : σ) (a : JSVal) : σ :=
  match s with
  | .arr items =>
      -- next(source.reduce(next, initial), end)
      let p := items.foldl (foldStep step) (st, a)
      (step p.1 p.2 endToken).1
  | .val v =>
      if v = .null ∨ v = .undefined then
        -- nullish: next(initial, end)
        (step st a endToken).1
      else
        -- plain value: next(next(initial, source), end)
        let p := step st a v
        (step p.1 p.2 endToken).1
  | .xform act sub => drive sub (xformNext act step) st a
  | .takeA n sub => (drive sub (takeNext step) (n, st) a).2
  | .dropA n sub => (drive sub (dropNext step) (n, st) a).2
  | .append l r =>
      -- nextLeft: on end, accumulate(right, next, accumulated) (returns undefined)
      drive l (fun st a i =>
        if i = endToken then (drive r step st a, JSVal.undefined)
        else step st a i) st a
  | .reductionsA f r0 sub => (drive sub (redNext f step) (r0, st) a).2
  | .sampleA src trig asm =>
      -- accumulate(source, nextSource); nextSource records the latest
      -- non-end item in the closure variable `sampled`
      let sampled := drive src
        (fun sv _ i => (if i = endToken then sv else i, JSVal.undefined))
        JSVal.undefined JSVal.undefined
      -- accumulate(triggers, nextTrigger, initial);
      -- nextTrigger: next(accumulated, assemble(sampled, item)) — no end check
      drive trig (fun st a i => step st a (asm sampled i)) st a

/-- `map(source, mapper)`, defined through the transformation combinator:
the per-item transform always emits `mapper(item)`. -/
def mapSrc (s : Src) (mapper : JSVal → JSVal) : Src :=
  .xform (fun i => some (mapper i)) s

/-- `filter(source, predicate)`: emits the item iff the predicate holds. -/
def filterSrc (s : Src) (p : JSVal → Bool) : Src :=
  .xform (fun i => if p i then some i else none) s

/-- `reject(source, predicate)`: emits the item iff the predicate fails. -/
def rejectSrc (s : Src) (p : JSVal → Bool) : Src :=
  .xform (fun i => if p i then none else some i) s

/-- `take(source, n)`: `if (n < 1) return null;` otherwise the
accumulatable with the `count` closure. -/
def takeSrc (s : Src) (n : Int) : Src :=
  if n < 1 then .val .null else .takeA n s

/-- `drop(source, n)`: `if (n < 1) return source;` otherwise the
accumulatable with the `count` closure.  (The `n === Infinity` branch is
not representable over `Int` and is not needed here.) -/
def dropSrc (s : Src) (n : Int) : Src :=
  if n < 1 then s else .dropA n s

/-- `nextAppend` from `concat(source)`: folds the inner sources pairwise
with `append`, starting from the `null` placeholder
(`return a === null ? b : append(a, b);`). -/
def nextAppend (a : Option Src) (b : Src) : Option Src :=
  match a with
  | none => some b
  | some a0 => some (.append a0 b)

/-- `concat(source)` for an array of sources: when the outer array ends,
the folded composite (or `null` if there were no inner sources) is driven
with the downstream reducing function and the original initial value. -/
def concatSrc (srcs : List Src) : Src :=
  match srcs.foldl nextAppend none with
  | none => .val .null
  | some c => c

/-- `sample(source, triggers)` with the default `assemble` (`id`, which
returns the sampled item and ignores the trigger item). -/
def sampleSrc (src trig : Src) : Src :=
  .sampleA src trig (fun sampled _ => sampled)

/-- `forward` from `merge(source)`: the shared state is
(`open`, `accumulated`, downstream machine state).  On an end signal the
open count is decremented and the downstream receives the end token
exactly when the count reaches zero; otherwise the item is forwarded and
the shared accumulated value updated. -/
def mergeForward {σ : Type} (step : σ → JSVal → JSVal → σ × JSVal) :
    Int × JSVal × σ → JSVal → JSVal → (Int × JSVal × σ) × JSVal :=
  fun p _ i =>
    if i = endToken then
      let o := p.1 - 1
      if o = 0 then
        let q := step p.2.2 p.2.1 endToken
        ((o, p.2.1, q.1), q.2)
      else ((o, p.2.1, p.2.2), p.2.1)
    else
      let q := step p.2.2 p.2.1 i
      ((p.1, q.2, q.1), q.2)

/-- The outer fold of `merge(source)` over an array of inner sources:
for each inner source the open count is incremented and the inner source
is accumulated through `forward` with a `null` seed. -/
def mergeFold (srcs : List Src) {σ : Type}
    (step : σ → JSVal → JSVal → σ × JSVal) (sh : Int × JSVal × σ) :
    Int × JSVal × σ :=
  srcs.foldl
    (fun sh n => drive n (mergeForward step) (sh.1 + 1, sh.2.1, sh.2.2) JSVal.null)
    sh

/-- `merge(source)` driven with a reducing function: the open count
starts at 1 for the outer sequence; after the outer fold the outer end
signal is passed to `forward`. -/
def mergeDrive (srcs : List Src) {σ : Type}
    (step : σ → JSVal → JSVal → σ × JSVal) (st : σ) (a : JSVal) : σ :=
  let sh := mergeFold srcs step (1, a, st)
  (mergeForward step sh JSVal.null endToken).1.2.2

/-- The items a source delivers to the reducing function before the end
token, for well-formed sources (see `WF`). -/
def scanAcc (f : JSVal → JSVal → JSVal) (r : JSVal) : List JSVal → List JSVal
  | [] => []
  | x :: xs => let r' := f r x; r' :: scanAcc f r' xs

/-- Denotation of a well-formed source: the list of items it emits. -/
def Src.emits : Src → List JSVal
  | .arr l => l
  | .val v => if v = .null ∨ v = .undefined then [] else [v]
  | .xform act sub => sub.emits.filterMap act
  | .takeA n sub => sub.emits.take n.toNat
  | .dropA n sub => sub.emits.drop n.toNat
  | .append l r => l.emits ++ r.emits
  | .reductionsA f r0 sub => scanAcc f r0 sub.emits
  | .sampleA _ _ _ => []

/-- The value held by `sample`'s closure variable `sampled` after the
source has been accumulated: the last non-end item, `undefined` if none. -/
def sampledOf (s : Src) : JSVal :=
  s.emits.foldl (fun sv i => if i = endToken then sv else i) JSVal.undefined

/-- Well-formed sources: items are distinct from the end token, per-item
transforms never produce the end token, `take`'s count avoids the
off-by-one case in which the source code delivers the end token twice
(see `claim_C1_counterexample` territory), and `sample` is excluded
because it does not forward the end token at all. -/
inductive WF : Src → Prop
  | arr {l : List JSVal} : endToken ∉ l → WF (.arr l)
  | val {v : JSVal} : v ≠ endToken → WF (.val v)
  | xform {act : JSVal → Option JSVal} {s : Src} :
      (∀ i v, act i = some v → v ≠ endToken) → WF s → WF (.xform act s)
  | takeA {n : Int} {s : Src} :
      1 ≤ n → n ≠ (s.emits.length : Int) + 1 → WF s → WF (.takeA n s)
  | dropA {n : Int} {s : Src} : 0 ≤ n → WF s → WF (.dropA n s)
  | append {l r : Src} : WF l → WF r → WF (.append l r)
  | reductionsA {f : JSVal → JSVal → JSVal} {r0 : JSVal} {s : Src} :
      (∀ r i, f r i ≠ endToken) → WF s → WF (.reductionsA f r0 s)

/-- A recording reducing function: a pure caller-supplied `next`
instrumented so that its machine state logs every call it receives, as
(accumulated value, item) pairs in call order. -/
def recordStep (f : JSVal → JSVal → JSVal) :
    List (JSVal × JSVal) → JSVal → JSVal → List (JSVal × JSVal) × JSVal :=
  fun log a i => (log ++ [(a, i)], f a i)

/-- The complete log of calls that driving `s` makes to the
caller-supplied reducing function `f`, seeded with `a`. -/
def driveLog (s : Src) (f : JSVal → JSVal → JSVal) (a : JSVal) :
    List (JSVal × JSVal) :=
  drive s (recordStep f) [] a

/-- The items the caller-supplied reducing function receives, in order. -/
def receivedItems (s : Src) (f : JSVal → JSVal → JSVal) (a : JSVal) :
    List JSVal :=
  (driveLog s f a).map Prod.snd

/-- The (accumulated value, item) pairs a pure reducing function `f`
receives while folding a list from seed `a`. -/
def accPairs (f : JSVal → JSVal → JSVal) : JSVal → List JSVal → List (JSVal × JSVal)
  | _, [] => []
  | a, x :: xs => (a, x) :: accPairs f (f a x) xs

/-- The call log of `merge` driven with a pure recording reducing
function. -/
def mergeLog (srcs : List Src) (f : JSVal → JSVal → JSVal) (a : JSVal) :
    List (JSVal × JSVal) :=
  mergeDrive srcs (recordStep f) [] a

/-- A hub consumer entry: `{ next: next, accumulated: initial }`. -/
structure Consumer where
  next : JSVal → JSVal → JSVal
  accumulated : JSVal

/-- `dispatchToConsumer_(item, consumer)`: if the consumer has not ended
of its own accord, accumulate it with the latest item; an ended consumer
is left untouched (its reducing function is not called). -/
def dispatchToConsumer (item : JSVal) (c : Consumer) : Consumer :=
  if c.accumulated ≠ endToken then
    { c with accumulated := c.next c.accumulated item }
  else c

/-- `nextDispatch(_, item)` from `hub`: dispatch the item to every
consumer; if the item is the end token, empty the consumer list. -/
def nextDispatch (cs : List Consumer) (item : JSVal) : List Consumer :=
  let cs' := cs.map (dispatchToConsumer item)
  if item = endToken then [] else cs'

/-- The consumer list as the wrapped source delivers a sequence of
items/end signals to the hub's `nextDispatch`. -/
def hubRun (cs : List Consumer) (items : List JSVal) : List Consumer :=
  items.foldl nextDispatch cs

/-- The hub object: the consumer list and the `isOpen` flag. -/
structure HubState where
  consumers : List Consumer
  isOpen : Bool

/-- One accumulation request on the hub (`accumulateHub`): push the
consumer; the wrapped source is driven (the Boolean result) only if the
hub was not already open, and the hub is marked open. -/
def hubAttach (h : HubState) (c : Consumer) : HubState × Bool :=
  (⟨h.consumers ++ [c], true⟩, !h.isOpen)

/-- A sequence of accumulation requests, counting how many of them drive
the wrapped source. -/
def hubAttachRun (h : HubState) : List Consumer → HubState × Nat
  | [] => (h, 0)
  | c :: rest =>
      let p := hubAttach h c
      let q := hubAttachRun p.1 rest
      (q.1, (if p.2 then 1 else 0) + q.2)

/-- The state of a hub before any accumulation request. -/
def hubInit : HubState := ⟨[], false⟩

/-- What a single consumer observes: its own reducing function folded
over the dispatched items, skipping every item from the moment the
function returns the end token. -/
def consumerFold (next : JSVal → JSVal → JSVal) (a : JSVal)
    (items : List JSVal) : JSVal :=
  items.foldl (fun a i => if a = endToken then a else next a i) a

/-- `nextUntilEnd(accumulated, item)`: throws if the source already
ended; otherwise accumulates non-end items with `next`, and marks the
source ended when the item is the end token or when `next` returned the
end token.  Exceptions are modelled with `Except`. -/
def nextUntilEnd (next : JSVal → JSVal → JSVal) (isEnded : Bool)
    (a i : JSVal) : Except String (Bool × JSVal) :=
  if isEnded then .error "Source attempted to send item after it ended"
  else
    let acc := if i = endToken then a else next a i
    .ok ((i == endToken) || (acc == endToken), acc)

/-- The entry check of `accumulateOnce(next, initial)`: if accumulation
for this source was already ended or is in progress, throw; otherwise
mark accumulation in progress. -/
def accumulateOnceEntry (isEnded isAccumulating : Bool) : Except String Bool :=
  if isEnded || isAccumulating then
    .error "Accumulation attempted after source was ended"
  else .ok true

/-- A guarded accumulation run: the upstream source hands the guard a
sequence of values (items and end signals) and the guard threads the
`isEnded` flag and the accumulated value, stopping at the first thrown
exception. -/
def guardRun (next : JSVal → JSVal → JSVal) :
    Bool → JSVal → List JSVal → Except String (Bool × JSVal)
  | g, a, [] => .ok (g, a)
  | g, a, i :: is =>
      match nextUntilEnd next g a i with
      | .error e => .error e
      | .ok p => guardRun next p.1 p.2 is

/-- `add_(pushable, item)`: pushes the item onto the queue.  The queue is
the machine state; the JavaScript function returns the array itself
(the accumulated value is the array reference, which never changes), so
the accumulated value is returned unchanged. -/
def addNext : List JSVal → JSVal → JSVal → List JSVal × JSVal :=
  fun q a i => (q ++ [i], a)

/-- The internal queue (`stack`) after `throttle` eagerly accumulates its
source: `accumulate(source, add_, stack)`. -/
def throttleQueue (s : Src) : List JSVal :=
  drive s addNext [] JSVal.null

/-- One timer tick of `throttled()`: if the queue is empty, wait; else
shift the first item, cancel the timer if it is the end token, and call
`next(accumulated, item)` where `accumulated` is the captured initial
value — the call's return value is discarded (only the machine state of
the downstream is kept). -/
def throttleTick {σ : Type} (step : σ → JSVal → JSVal → σ × JSVal)
    (initial : JSVal) : List JSVal × Bool × σ → List JSVal × Bool × σ
  | ([], tmr, st) => ([], tmr, st)
  | (i :: rest, tmr, st) =>
      (rest, if i = endToken then false else tmr, (step st initial i).1)

/-- `k` timer ticks of the throttle drain. -/
def throttleDrain {σ : Type} (step : σ → JSVal → JSVal → σ × JSVal)
    (initial : JSVal) : Nat → List JSVal × Bool × σ → List JSVal × Bool × σ
  | 0, v => v
  | k + 1, v => throttleDrain step initial k (throttleTick step initial v)

/-- Items of the optional composite built by `concat`'s fold. -/
def optEmits : Option Src → List JSVal
  | none => []
  | some s => s.emits

/-- Concrete hub consumer: ends itself when it sees the item `1` (as in
the library's own test). -/
def hubCons1 : Consumer :=
  ⟨fun _ i => if i = .num 1 then endToken else .null, .null⟩

/-- Concrete hub consumer: counts every call it receives. -/
def hubCons2 : Consumer := ⟨fun a _ => jsAdd a (.num 1), .num 0⟩

/-- The items of the hub scenario from the specification: a 4-item
source. -/
def hubItems : List JSVal := [.num 0, .num 1, .num 2, .num 3]

lemma scanAcc_end_not_mem {f : JSVal → JSVal → JSVal}
    (hf : ∀ r i, f r i ≠ endToken) :
    ∀ (l : List JSVal) (r : JSVal), endToken ∉ scanAcc f r l := by
  intro l
  induction l with
  | nil => intro r h; simp [scanAcc] at h
  | cons x xs ih =>
      intro r h
      simp only [scanAcc, List.mem_cons] at h
      rcases h with h | h
      · exact hf r x h.symm
      · exact ih (f r x) h

/-- A well-formed source never emits the end token as an item. -/
lemma wf_end_free {s : Src} (h : WF s) : endToken ∉ s.emits := by
  induction h with
  | arr hl => exact hl
  | val hv =>
      rename_i v
      by_cases hn : v = JSVal.null ∨ v = JSVal.undefined <;>
        simp [Src.emits, hn, Ne.symm hv]
  | xform hact _ ih =>
      intro hmem
      simp only [Src.emits, List.mem_filterMap] at hmem
      obtain ⟨x, _, hx⟩ := hmem
      exact hact x endToken hx rfl
  | takeA _ _ _ ih =>
      intro hmem
      exact ih (List.take_subset _ _ hmem)
  | dropA _ _ ih =>
      intro hmem
      exact ih (List.drop_subset _ _ hmem)
  | append _ _ ihl ihr =>
      intro hmem
      simp only [Src.emits, List.mem_append] at hmem
      rcases hmem with hmem | hmem
      · exact ihl hmem
      · exact ihr hmem
  | reductionsA hf _ ih =>
      exact scanAcc_end_not_mem hf _ _

lemma drive_arr_def {σ : Type} (step : σ → JSVal → JSVal → σ × JSVal)
    (l : List JSVal) (st : σ) (a : JSVal) :
    drive (.arr l) step st a =
      (step (l.foldl (foldStep step) (st, a)).1
        (l.foldl (foldStep step) (st, a)).2 endToken).1 := rfl

lemma drive_arr_nil {σ : Type} (step : σ → JSVal → JSVal → σ × JSVal)
    (st : σ) (a : JSVal) :
    drive (.arr []) step st a = (step st a endToken).1 := rfl

lemma drive_arr_cons {σ : Type} (step : σ → JSVal → JSVal → σ × JSVal)
    (i : JSVal) (l : List JSVal) (st : σ) (a : JSVal) :
    drive (.arr (i :: l)) step st a =
      drive (.arr l) step (step st a i).1 (step st a i).2 := by
  simp [drive_arr_def, List.foldl_cons, foldStep]

lemma drive_arr_append_list {σ : Type} (step : σ → JSVal → JSVal → σ × JSVal)
    (xs ys : List JSVal) (st : σ) (a : JSVal) :
    drive (.arr (xs ++ ys)) step st a =
      drive (.arr ys) step (xs.foldl (foldStep step) (st, a)).1
        (xs.foldl (foldStep step) (st, a)).2 := by
  simp [drive_arr_def, List.foldl_append]

/-- Two machines that agree on non-end items drive arrays of non-end
items to the same continuation state. -/
lemma foldl_congr_items {σ : Type} (m₁ m₂ : σ → JSVal → JSVal → σ × JSVal)
    (h : ∀ st a i, i ≠ endToken → m₁ st a i = m₂ st a i) :
    ∀ (l : List JSVal), endToken ∉ l → ∀ (p : σ × JSVal),
      l.foldl (foldStep m₁) p = l.foldl (foldStep m₂) p := by
  intro l
  induction l with
  | nil => intro _ p; rfl
  | cons i rest ih =>
      intro hl p
      simp only [List.mem_cons, not_or] at hl
      simp only [List.foldl_cons]
      rw [show foldStep m₁ p i = foldStep m₂ p i from by
            simp [foldStep, h p.1 p.2 i (Ne.symm hl.1)]]
      exact ih hl.2 _

/-- The transformation combinator: driving through `xformNext` is the
same as driving the transformed item list, and the end token is
forwarded verbatim. -/
lemma drive_arr_xformNext {σ : Type} (act : JSVal → Option JSVal)
    (step : σ → JSVal → JSVal → σ × JSVal) :
    ∀ (l : List JSVal), endToken ∉ l → ∀ (st : σ) (a : JSVal),
      drive (.arr l) (xformNext act step) st a =
        drive (.arr (l.filterMap act)) step st a := by
  intro l
  induction l with
  | nil =>
      intro _ st a
      simp [drive_arr_nil, xformNext]
  | cons i rest ih =>
      intro hl st a
      simp only [List.mem_cons, not_or] at hl
      rw [drive_arr_cons, List.filterMap_cons]
      have hx : xformNext act step st a i =
          match act i with
          | some v => step st a v
          | none => (st, a) := by
        simp [xformNext, Ne.symm hl.1]
      cases hact : act i with
      | none =>
          simp only [hact] at hx
          rw [hx, ih hl.2]
      | some v =>
          simp only [hact] at hx
          rw [hx, drive_arr_cons]
          exact ih hl.2 _ _

/-- `take`'s reducing function once the count is exhausted: no further
calls reach the downstream machine. -/
lemma drive_arr_takeNext_spent {σ : Type}
    (step : σ → JSVal → JSVal → σ × JSVal) :
    ∀ (l : List JSVal) (c : Int), c ≤ 0 → ∀ (st : σ) (a : JSVal),
      (drive (.arr l) (takeNext step) (c, st) a).2 = st := by
  intro l
  induction l with
  | nil =>
      intro c hc st a
      have : c - 1 < 0 := by omega
      simp [drive_arr_nil, takeNext, this]
  | cons i rest ih =>
      intro c hc st a
      rw [drive_arr_cons]
      have h1 : c - 1 < 0 := by omega
      have hstep : takeNext step (c, st) a i = ((c - 1, st), endToken) := by
        simp [takeNext, h1]
      rw [hstep]
      exact ih (c - 1) (by omega) st endToken

/-- `take(source, n)` over a well-formed item list: the downstream
machine sees exactly the first `n` items followed by one end token
(provided `n` is not the length plus one, the off-by-one case in which
the source delivers the end token twice). -/
lemma drive_arr_takeNext {σ : Type} (step : σ → JSVal → JSVal → σ × JSVal) :
    ∀ (l : List JSVal), endToken ∉ l →
      ∀ (n : Int), 1 ≤ n → n ≠ (l.length : Int) + 1 → ∀ (st : σ) (a : JSVal),
      (drive (.arr l) (takeNext step) (n, st) a).2 =
        drive (.arr (l.take n.toNat)) step st a := by
  intro l
  induction l with
  | nil =>
      intro _ n h1 h2 st a
      have hc0 : ¬ (n - 1 < 0) := by omega
      have hc1 : ¬ (n - 1 = 0) := by
        simp only [List.length_nil, Nat.cast_zero] at h2; omega
      simp [drive_arr_nil, takeNext, hc0, hc1, List.take_nil]
  | cons i rest ih =>
      intro hl n h1 h2 st a
      simp only [List.mem_cons, not_or] at hl
      rw [drive_arr_cons]
      have hc0 : ¬ (n - 1 < 0) := by omega
      by_cases hn1 : n = 1
      · -- the n-th item: forward it, then send the end token and ignore the rest
        have hstep : takeNext step (n, st) a i =
            ((0, (step (step st a i).1 (step st a i).2 endToken).1),
              (step (step st a i).1 (step st a i).2 endToken).2) := by
          simp [takeNext, hn1]
        rw [hstep]
        have hspent := drive_arr_takeNext_spent step rest 0 le_rfl
          (step (step st a i).1 (step st a i).2 endToken).1
          (step (step st a i).1 (step st a i).2 endToken).2
        rw [hspent]
        have htake : (i :: rest).take n.toNat = [i] := by
          subst hn1; rfl
        rw [htake, drive_arr_cons, drive_arr_nil]
      · -- count not yet exhausted: forward the item and continue
        have hc1 : ¬ (n - 1 = 0) := by omega
        have hstep : takeNext step (n, st) a i =
            ((n - 1, (step st a i).1), (step st a i).2) := by
          simp [takeNext, hc0, hc1]
        rw [hstep]
        have hlen : n - 1 ≠ (rest.length : Int) + 1 := by
          simp only [List.length_cons] at h2
          push_cast at h2 ⊢
          omega
        rw [ih hl.2 (n - 1) (by omega) hlen]
        have htake : (i :: rest).take n.toNat = i :: rest.take (n - 1).toNat := by
          have h2' : n.toNat = (n - 1).toNat + 1 := by omega
          rw [h2', List.take_succ_cons]
        rw [htake, drive_arr_cons]

/-- `drop(source, n)` over a well-formed item list: the downstream
machine sees exactly the items after the first `n`, then the end token. -/
lemma drive_arr_dropNext {σ : Type} (step : σ → JSVal → JSVal → σ × JSVal) :
    ∀ (l : List JSVal), endToken ∉ l →
      ∀ (n : Int), 0 ≤ n → ∀ (st : σ) (a : JSVal),
      (drive (.arr l) (dropNext step) (n, st) a).2 =
        drive (.arr (l.drop n.toNat)) step st a := by
  intro l
  induction l with
  | nil =>
      intro _ n _ st a
      simp [drive_arr_nil, dropNext]
  | cons i rest ih =>
      intro hl n h0 st a
      simp only [List.mem_cons, not_or] at hl
      rw [drive_arr_cons]
      by_cases hn0 : n = 0
      · have hstep : dropNext step (n, st) a i =
            ((n, (step st a i).1), (step st a i).2) := by
          simp [dropNext, hn0]
        rw [hstep, ih hl.2 n h0]
        subst hn0
        simp only [Int.toNat_zero, List.drop_zero]
        rw [drive_arr_cons]
      · have hstep : dropNext step (n, st) a i = ((n - 1, st), a) := by
          simp [dropNext, hn0, Ne.symm hl.1]
        rw [hstep, ih hl.2 (n - 1) (by omega)]
        have hdrop : (i :: rest).drop n.toNat = rest.drop (n - 1).toNat := by
          have h2' : n.toNat = (n - 1).toNat + 1 := by omega
          rw [h2', List.drop_succ_cons]
        rw [hdrop]

/-- `reductions(source, f, r0)` over a well-formed item list: the
downstream machine sees the running reductions, then the end token. -/
lemma drive_arr_redNext {σ : Type} (f : JSVal → JSVal → JSVal)
    (step : σ → JSVal → JSVal → σ × JSVal) :
    ∀ (l : List JSVal), endToken ∉ l → ∀ (r : JSVal) (st : σ) (a : JSVal),
      (drive (.arr l) (redNext f step) (r, st) a).2 =
        drive (.arr (scanAcc f r l)) step st a := by
  intro l
  induction l with
  | nil =>
      intro _ r st a
      simp [drive_arr_nil, redNext, scanAcc]
  | cons x rest ih =>
      intro hl r st a
      simp only [List.mem_cons, not_or] at hl
      rw [drive_arr_cons]
      have hstep : redNext f step (r, st) a x =
          ((f r x, (step st a (f r x)).1), (step st a (f r x)).2) := by
        simp only [redNext]
        rw [if_neg (Ne.symm hl.1)]
      rw [hstep, ih hl.2]
      show _ = drive (.arr (f r x :: scanAcc f (f r x) rest)) step st a
      rw [drive_arr_cons]

lemma drive_val_def {σ : Type} (step : σ → JSVal → JSVal → σ × JSVal)
    (v : JSVal) (st : σ) (a : JSVal) :
    drive (.val v) step st a =
      if v = .null ∨ v = .undefined then (step st a endToken).1
      else (step (step st a v).1 (step st a v).2 endToken).1 := rfl

lemma drive_xform_def {σ : Type} (step : σ → JSVal → JSVal → σ × JSVal)
    (act : JSVal → Option JSVal) (s : Src) (st : σ) (a : JSVal) :
    drive (.xform act s) step st a = drive s (xformNext act step) st a := rfl

lemma drive_takeA_def {σ : Type} (step : σ → JSVal → JSVal → σ × JSVal)
    (n : Int) (s : Src) (st : σ) (a : JSVal) :
    drive (.takeA n s) step st a = (drive s (takeNext step) (n, st) a).2 := rfl

lemma drive_dropA_def {σ : Type} (step : σ → JSVal → JSVal → σ × JSVal)
    (n : Int) (s : Src) (st : σ) (a : JSVal) :
    drive (.dropA n s) step st a = (drive s (dropNext step) (n, st) a).2 := rfl

lemma drive_append_def {σ : Type} (step : σ → JSVal → JSVal → σ × JSVal)
    (l r : Src) (st : σ) (a : JSVal) :
    drive (.append l r) step st a =
      drive l (fun st a i =>
        if i = endToken then (drive r step st a, JSVal.undefined)
        else step st a i) st a := rfl

lemma drive_red_def {σ : Type} (step : σ → JSVal → JSVal → σ × JSVal)
    (f : JSVal → JSVal → JSVal) (r0 : JSVal) (s : Src) (st : σ) (a : JSVal) :
    drive (.reductionsA f r0 s) step st a =
      (drive s (redNext f step) (r0, st) a).2 := rfl

lemma drive_sampleA_def {σ : Type} (step : σ → JSVal → JSVal → σ × JSVal)
    (src trig : Src) (asm : JSVal → JSVal → JSVal) (st : σ) (a : JSVal) :
    drive (.sampleA src trig asm) step st a =
      drive trig
        (fun st a i =>
          step st a (asm (drive src
            (fun sv _ i => (if i = endToken then sv else i, JSVal.undefined))
            JSVal.undefined JSVal.undefined) i))
        st a := rfl

/-- `append(left, right)`: driving `left`'s items through `nextLeft` and
then signalling end hands the downstream machine and the accumulated
value so far to the accumulation of `right`. -/
lemma drive_arr_appendNext {σ : Type} (r : Src)
    (step : σ → JSVal → JSVal → σ × JSVal) :
    ∀ (l : List JSVal), endToken ∉ l → ∀ (st : σ) (a : JSVal),
      drive (.arr l)
        (fun st a i =>
          if i = endToken then (drive r step st a, JSVal.undefined)
          else step st a i) st a =
      drive r step (l.foldl (foldStep step) (st, a)).1
        (l.foldl (foldStep step) (st, a)).2 := by
  intro l
  induction l with
  | nil => intro _ st a; simp [drive_arr_nil]
  | cons i rest ih =>
      intro hl st a
      simp only [List.mem_cons, not_or] at hl
      rw [drive_arr_cons]
      simp only [if_neg (Ne.symm hl.1)]
      rw [ih hl.2]
      simp [List.foldl_cons, foldStep]

/-- Replay theorem: driving a well-formed source is observationally the
same, for every reducing machine, as driving the plain array of the items
it emits — i.e. the downstream reducing function receives exactly
`s.emits`, one by one with the accumulated value threaded through, and
then the end token exactly once. -/
theorem drive_eq_replay {s : Src} (h : WF s) :
    ∀ {σ : Type} (step : σ → JSVal → JSVal → σ × JSVal) (st : σ) (a : JSVal),
      drive s step st a = drive (.arr s.emits) step st a := by
  induction h with
  | arr _ => intro σ step st a; rfl
  | val hv =>
      rename_i v
      intro σ step st a
      by_cases hn : v = JSVal.null ∨ v = JSVal.undefined
      · rw [drive_val_def, if_pos hn]
        show _ = drive (.arr (if v = JSVal.null ∨ v = JSVal.undefined then [] else [v])) _ _ _
        rw [if_pos hn, drive_arr_nil]
      · rw [drive_val_def, if_neg hn]
        show _ = drive (.arr (if v = JSVal.null ∨ v = JSVal.undefined then [] else [v])) _ _ _
        rw [if_neg hn, drive_arr_cons, drive_arr_nil]
  | xform hact hs ih =>
      intro σ step st a
      rw [drive_xform_def, ih, drive_arr_xformNext _ _ _ (wf_end_free hs)]
      rfl
  | takeA h1 h2 hs ih =>
      intro σ step st a
      rw [drive_takeA_def, ih, drive_arr_takeNext _ _ (wf_end_free hs) _ h1 h2]
      rfl
  | dropA h0 hs ih =>
      intro σ step st a
      rw [drive_dropA_def, ih, drive_arr_dropNext _ _ (wf_end_free hs) _ h0]
      rfl
  | append hWl hWr ihl ihr =>
      rename_i l r
      intro σ step st a
      rw [drive_append_def, ihl, drive_arr_appendNext _ _ _ (wf_end_free hWl), ihr]
      show _ = drive (.arr (l.emits ++ r.emits)) step st a
      rw [drive_arr_append_list]
  | reductionsA hf hs ih =>
      intro σ step st a
      rw [drive_red_def, ih, drive_arr_redNext _ _ _ (wf_end_free hs)]
      rfl

lemma accPairs_map_snd (f : JSVal → JSVal → JSVal) :
    ∀ (l : List JSVal) (a : JSVal), (accPairs f a l).map Prod.snd = l := by
  intro l
  induction l with
  | nil => intro a; rfl
  | cons x xs ih => intro a; simp [accPairs, ih]

lemma foldl_recordStep (f : JSVal → JSVal → JSVal) :
    ∀ (l : List JSVal) (log : List (JSVal × JSVal)) (a : JSVal),
      l.foldl (foldStep (recordStep f)) (log, a) =
        (log ++ accPairs f a l, l.foldl f a) := by
  intro l
  induction l with
  | nil => intro log a; simp [accPairs]
  | cons x xs ih =>
      intro log a
      simp only [List.foldl_cons]
      show xs.foldl (foldStep (recordStep f)) (log ++ [(a, x)], f a x) = _
      rw [ih]
      simp [accPairs]

/-- The call log of driving a plain array: each item paired with the
running accumulated value, then the fold result paired with the end
token. -/
lemma driveLog_arr (f : JSVal → JSVal → JSVal) (l : List JSVal) (a : JSVal) :
    driveLog (.arr l) f a = accPairs f a l ++ [(l.foldl f a, endToken)] := by
  unfold driveLog
  rw [drive_arr_def, foldl_recordStep]
  simp [recordStep]

/-- The call log of driving any well-formed source. -/
theorem driveLog_wf {s : Src} (h : WF s) (f : JSVal → JSVal → JSVal) (a : JSVal) :
    driveLog s f a = accPairs f a s.emits ++ [(s.emits.foldl f a, endToken)] := by
  unfold driveLog
  rw [drive_eq_replay h]
  exact driveLog_arr f s.emits a

/-- Every well-formed source delivers its items and then the end token,
exactly once, to the caller's reducing function. -/
theorem receivedItems_wf {s : Src} (h : WF s) (f : JSVal → JSVal → JSVal)
    (a : JSVal) :
    receivedItems s f a = s.emits ++ [endToken] := by
  unfold receivedItems
  rw [driveLog_wf h]
  simp [accPairs_map_snd]

/-- Driving one (well-formed) inner source of `merge` through `forward`
while the open count stays positive: the items are forwarded to the
downstream machine with the shared accumulated value threaded through,
the end signal decrements the count by one, and the downstream machine
never receives the end token. -/
lemma drive_arr_mergeForward {σ : Type} (step : σ → JSVal → JSVal → σ × JSVal) :
    ∀ (l : List JSVal), endToken ∉ l → ∀ (o : Int), o - 1 ≠ 0 →
      ∀ (acc : JSVal) (st : σ) (a0 : JSVal),
      drive (.arr l) (mergeForward step) (o, acc, st) a0 =
        (o - 1, (l.foldl (foldStep step) (st, acc)).2,
          (l.foldl (foldStep step) (st, acc)).1) := by
  intro l
  induction l with
  | nil =>
      intro _ o ho acc st a0
      rw [drive_arr_nil]
      simp [mergeForward, ho]
  | cons i rest ih =>
      intro hl o ho acc st a0
      simp only [List.mem_cons, not_or] at hl
      rw [drive_arr_cons]
      have hstep : mergeForward step (o, acc, st) a0 i =
          ((o, (step st acc i).2, (step st acc i).1), (step st acc i).2) := by
        simp only [mergeForward]
        rw [if_neg (Ne.symm hl.1)]
      rw [hstep, ih hl.2 o ho]
      simp [List.foldl_cons, foldStep]

/-- The open-count invariant of `merge`: starting the outer fold with any
open count `o ≥ 1` over well-formed inner sources, each inner source
increments the count on opening and decrements it on its end signal, so
the fold returns with the count restored to `o`; the downstream machine
receives exactly the concatenated inner items (never the end token,
because the count never reaches zero during the fold). -/
lemma mergeFold_open {σ : Type} (step : σ → JSVal → JSVal → σ × JSVal) :
    ∀ (srcs : List Src), (∀ s ∈ srcs, WF s) → ∀ (o : Int), 1 ≤ o →
      ∀ (acc : JSVal) (st : σ),
      mergeFold srcs step (o, acc, st) =
        (o, ((srcs.map Src.emits).flatten.foldl (foldStep step) (st, acc)).2,
          ((srcs.map Src.emits).flatten.foldl (foldStep step) (st, acc)).1) := by
  intro srcs
  induction srcs with
  | nil =>
      intro _ o _ acc st
      simp [mergeFold]
  | cons n rest ih =>
      intro hwf o ho acc st
      have hn : WF n := hwf n (List.mem_cons_self n rest)
      have hrest : ∀ s ∈ rest, WF s := fun s hs => hwf s (List.mem_cons_of_mem n hs)
      show mergeFold rest step
          (drive n (mergeForward step) (o + 1, acc, st) JSVal.null) = _
      rw [drive_eq_replay hn,
        drive_arr_mergeForward step n.emits (wf_end_free hn) (o + 1) (by omega)]
      have : o + 1 - 1 = o := by omega
      rw [this, ih hrest o ho]
      simp [List.foldl_append]

/-- `merge` over well-formed inner sources is observationally the same,
for every reducing machine, as driving the concatenation of the inner
item lists: in particular the downstream reducing function receives the
end token exactly once, after all inner sources and the outer source have
ended. -/
theorem mergeDrive_eq_replay {srcs : List Src} (h : ∀ s ∈ srcs, WF s)
    {σ : Type} (step : σ → JSVal → JSVal → σ × JSVal) (st : σ) (a : JSVal) :
    mergeDrive srcs step st a =
      drive (.arr (srcs.map Src.emits).flatten) step st a := by
  unfold mergeDrive
  rw [mergeFold_open step srcs h 1 le_rfl]
  simp only [mergeForward, if_pos rfl]
  norm_num [drive_arr_def]

/-- The end token is not among the items of well-formed inner sources. -/
lemma join_emits_end_free {srcs : List Src} (h : ∀ s ∈ srcs, WF s) :
    endToken ∉ (srcs.map Src.emits).flatten := by
  intro hmem
  rw [List.mem_flatten] at hmem
  obtain ⟨l, hl, hmem⟩ := hmem
  rw [List.mem_map] at hl
  obtain ⟨s, hs, rfl⟩ := hl
  exact wf_end_free (h s hs) hmem

/-! ### The multicast adapter `hub(source)` -/

lemma hubAttachRun_open (cs : List Consumer) :
    ∀ (h : HubState), h.isOpen = true → (hubAttachRun h cs).2 = 0 := by
  induction cs with
  | nil => intro h _; rfl
  | cons c rest ih =>
      intro h hopen
      show ((if (!h.isOpen) = true then 1 else 0) + (hubAttachRun (hubAttach h c).1 rest).2 = 0)
      rw [hopen, ih (hubAttach h c).1 rfl]
      rfl

/-- Regardless of the number of accumulation requests, the wrapped source
is driven at most once. -/
lemma hubAttachRun_starts (cs : List Consumer) :
    (hubAttachRun hubInit cs).2 ≤ 1 := by
  cases cs with
  | nil => exact Nat.zero_le 1
  | cons c rest =>
      show ((if (!hubInit.isOpen) = true then 1 else 0) + (hubAttachRun (hubAttach hubInit c).1 rest).2 ≤ 1)
      rw [hubAttachRun_open rest (hubAttach hubInit c).1 rfl]
      exact le_refl 1

/-- Dispatching non-end items: every consumer independently folds its own
reducing function over the items from its own accumulated value, and a
consumer whose function has returned the end token is skipped from then
on. -/
lemma hubRun_items (items : List JSVal) (hitems : endToken ∉ items) :
    ∀ (cs : List Consumer),
      hubRun cs items =
        cs.map (fun c => ⟨c.next, consumerFold c.next c.accumulated items⟩) := by
  induction items with
  | nil =>
      intro cs
      simp [hubRun, consumerFold]
  | cons i rest ih =>
      simp only [List.mem_cons, not_or] at hitems
      intro cs
      show hubRun (nextDispatch cs i) rest = _
      rw [ih hitems.2 (nextDispatch cs i)]
      simp only [nextDispatch, if_neg (Ne.symm hitems.1), List.map_map]
      apply List.map_congr_left
      intro c _
      simp only [Function.comp_apply, dispatchToConsumer]
      by_cases hc : c.accumulated = endToken
      · simp [hc, consumerFold, hubRun]
      · simp only [if_pos hc, if_neg hc]
        simp [consumerFold, hc]

/-! ### The single-consumption guard (`accumulatesOnce` / `enforceEnd`) -/

lemma guardRun_clean (next : JSVal → JSVal → JSVal)
    (hnext : ∀ b j, next b j ≠ endToken) :
    ∀ (xs : List JSVal), endToken ∉ xs → ∀ (a : JSVal),
      guardRun next false a xs = .ok (false, xs.foldl next a) := by
  intro xs
  induction xs with
  | nil => intro _ a; rfl
  | cons x rest ih =>
      intro hxs a
      simp only [List.mem_cons, not_or] at hxs
      have hx : nextUntilEnd next false a x = .ok (false, next a x) := by
        have h1 : (x == endToken) = false := by
          simp [Ne.symm hxs.1]
        have h2 : (next a x == endToken) = false := by
          simp [hnext a x]
        simp [nextUntilEnd, Ne.symm hxs.1, h1, h2]
      simp only [guardRun, hx]
      exact ih hxs.2 (next a x)

/-! ### `throttle(source, ms)` -/

/-- For a well-formed source the queue holds the items followed by the
end token (the end signal is pushed like any other value). -/
lemma throttleQueue_wf {s : Src} (h : WF s) :
    throttleQueue s = s.emits ++ [endToken] := by
  unfold throttleQueue
  rw [drive_eq_replay h, drive_arr_def]
  have hfold : ∀ (l : List JSVal) (q : List JSVal) (a : JSVal),
      l.foldl (foldStep addNext) (q, a) = (q ++ l, a) := by
    intro l
    induction l with
    | nil => intro q a; simp
    | cons x xs ih => intro q a; simp [List.foldl_cons, foldStep, addNext, ih]
  rw [hfold]
  simp [addNext]

lemma throttleDrain_succ {σ : Type} (step : σ → JSVal → JSVal → σ × JSVal)
    (initial : JSVal) (k : Nat) (v : List JSVal × Bool × σ) :
    throttleDrain step initial (k + 1) v =
      throttleDrain step initial k (throttleTick step initial v) := rfl

lemma throttleTick_nil {σ : Type} (step : σ → JSVal → JSVal → σ × JSVal)
    (initial : JSVal) (tmr : Bool) (st : σ) :
    throttleTick step initial ([], tmr, st) = ([], tmr, st) := rfl

lemma throttleTick_cons {σ : Type} (step : σ → JSVal → JSVal → σ × JSVal)
    (initial : JSVal) (i : JSVal) (rest : List JSVal) (tmr : Bool) (st : σ) :
    throttleTick step initial (i :: rest, tmr, st) =
      (rest, if i = endToken then false else tmr, (step st initial i).1) := rfl

/-- Every downstream call the throttle drain makes passes the captured
initial value as the accumulated argument, regardless of what the
downstream returned before. -/
lemma throttleDrain_log (f : JSVal → JSVal → JSVal) (initial : JSVal) :
    ∀ (k : Nat) (q : List JSVal) (tmr : Bool) (log : List (JSVal × JSVal)),
      (throttleDrain (recordStep f) initial k (q, tmr, log)).2.2 =
        log ++ (q.take k).map (fun i => (initial, i)) := by
  intro k
  induction k with
  | zero => intro q tmr log; simp [throttleDrain]
  | succ k ih =>
      intro q tmr log
      cases q with
      | nil =>
          rw [throttleDrain_succ, throttleTick_nil, ih [] tmr log]
          simp
      | cons i rest =>
          rw [throttleDrain_succ, throttleTick_cons]
          show (throttleDrain (recordStep f) initial k
            (rest, _, log ++ [(initial, i)])).2.2 = _
          rw [ih rest _ (log ++ [(initial, i)])]
          simp [List.take_succ_cons]

/-- The queue and timer components of the throttle drain do not depend on
the downstream reducing function at all: in particular a downstream that
returns the end token stops neither the timer nor the drain. -/
lemma throttleDrain_indep {σ₁ σ₂ : Type}
    (step₁ : σ₁ → JSVal → JSVal → σ₁ × JSVal)
    (step₂ : σ₂ → JSVal → JSVal → σ₂ × JSVal) (i₁ i₂ : JSVal) :
    ∀ (k : Nat) (q : List JSVal) (tmr : Bool) (st₁ : σ₁) (st₂ : σ₂),
      (throttleDrain step₁ i₁ k (q, tmr, st₁)).1 =
          (throttleDrain step₂ i₂ k (q, tmr, st₂)).1 ∧
        (throttleDrain step₁ i₁ k (q, tmr, st₁)).2.1 =
          (throttleDrain step₂ i₂ k (q, tmr, st₂)).2.1 := by
  intro k
  induction k with
  | zero => intro q tmr st₁ st₂; exact ⟨rfl, rfl⟩
  | succ k ih =>
      intro q tmr st₁ st₂
      cases q with
      | nil =>
          rw [throttleDrain_succ, throttleTick_nil,
            throttleDrain_succ, throttleTick_nil]
          exact ih [] tmr st₁ st₂
      | cons i rest =>
          rw [throttleDrain_succ, throttleTick_cons,
            throttleDrain_succ, throttleTick_cons]
          exact ih rest _ _ _

lemma throttleDrain_off {σ : Type} (step : σ → JSVal → JSVal → σ × JSVal)
    (initial : JSVal) :
    ∀ (k : Nat) (q : List JSVal) (st : σ),
      (throttleDrain step initial k (q, false, st)).2.1 = false := by
  intro k
  induction k with
  | zero => intro q st; rfl
  | succ k ih =>
      intro q st
      cases q with
      | nil =>
          rw [throttleDrain_succ, throttleTick_nil]
          exact ih [] st
      | cons i rest =>
          rw [throttleDrain_succ, throttleTick_cons, ite_self]
          exact ih rest _

/-- The interval timer is cancelled exactly when the end token is popped
from the queue. -/
lemma throttleDrain_timer {σ : Type} (step : σ → JSVal → JSVal → σ × JSVal)
    (initial : JSVal) :
    ∀ (k : Nat) (q : List JSVal) (st : σ),
      (throttleDrain step initial k (q, true, st)).2.1 =
        !(q.take k).contains endToken := by
  intro k
  induction k with
  | zero => intro q st; simp [throttleDrain]
  | succ k ih =>
      intro q st
      cases q with
      | nil =>
          rw [throttleDrain_succ, throttleTick_nil, ih []]
          simp
      | cons i rest =>
          rw [throttleDrain_succ, throttleTick_cons]
          by_cases hi : i = endToken
          · rw [if_pos hi, throttleDrain_off]
            have hbe : (endToken == i) = true := by simp [hi]
            simp only [List.take_succ_cons, List.contains_cons, hbe,
              Bool.true_or, Bool.not_true]
          · rw [if_neg hi, ih rest]
            have hbe : (endToken == i) = false := by
              simp [Ne.symm hi]
            simp only [List.take_succ_cons, List.contains_cons, hbe,
              Bool.false_or]

/-! ### Helper lemmas for `concat`, `merge` logs, `sample` and the guard -/

lemma concat_fold_emits :
    ∀ (srcs : List Src) (acc : Option Src),
      optEmits (srcs.foldl nextAppend acc) =
        optEmits acc ++ (srcs.map Src.emits).flatten := by
  intro srcs
  induction srcs with
  | nil => intro acc; simp
  | cons b rest ih =>
      intro acc
      show optEmits (rest.foldl nextAppend (nextAppend acc b)) = _
      rw [ih (nextAppend acc b)]
      cases acc with
      | none => simp [nextAppend, optEmits]
      | some a0 => simp [nextAppend, optEmits, Src.emits]

lemma concat_fold_wf :
    ∀ (srcs : List Src), (∀ s ∈ srcs, WF s) → ∀ (acc : Option Src),
      (∀ s, acc = some s → WF s) →
      ∀ s, srcs.foldl nextAppend acc = some s → WF s := by
  intro srcs
  induction srcs with
  | nil => intro _ acc hacc s hs; exact hacc s hs
  | cons b rest ih =>
      intro h acc hacc s hs
      have hb : WF b := h b (List.mem_cons_self b rest)
      have hrest : ∀ x ∈ rest, WF x := fun x hx => h x (List.mem_cons_of_mem b hx)
      refine ih hrest (nextAppend acc b) ?_ s hs
      intro x hx
      cases acc with
      | none =>
          simp only [nextAppend] at hx
          injection hx with hx
          exact hx ▸ hb
      | some a0 =>
          simp only [nextAppend] at hx
          injection hx with hx
          exact hx ▸ WF.append (hacc a0 rfl) hb

/-- The composite source built by `concat` over well-formed inner sources
is well-formed. -/
lemma wf_concatSrc {srcs : List Src} (h : ∀ s ∈ srcs, WF s) :
    WF (concatSrc srcs) := by
  unfold concatSrc
  cases hfold : srcs.foldl nextAppend none with
  | none => exact WF.val (by decide)
  | some c => exact concat_fold_wf srcs h none (by intro s hs; cases hs) c hfold

/-- The composite source built by `concat` emits the concatenation of the
inner item lists, in outer order. -/
lemma emits_concatSrc (srcs : List Src) :
    (concatSrc srcs).emits = (srcs.map Src.emits).flatten := by
  unfold concatSrc
  have h := concat_fold_emits srcs none
  cases hfold : srcs.foldl nextAppend none with
  | none =>
      rw [hfold] at h
      simp only [optEmits, List.nil_append] at h
      show ([] : List JSVal) = _
      exact h
  | some c =>
      rw [hfold] at h
      simpa [optEmits] using h

/-- The call log of `merge` over well-formed inner sources. -/
lemma mergeLog_wf {srcs : List Src} (h : ∀ s ∈ srcs, WF s)
    (f : JSVal → JSVal → JSVal) (a : JSVal) :
    mergeLog srcs f a =
      accPairs f a (srcs.map Src.emits).flatten ++
        [((srcs.map Src.emits).flatten.foldl f a, endToken)] := by
  unfold mergeLog
  rw [mergeDrive_eq_replay h]
  exact driveLog_arr f (srcs.map Src.emits).flatten a

/-- After `sample` drives its source, the closure variable `sampled`
holds the last non-end item (or `undefined` for an empty source). -/
lemma drive_sampled {src : Src} (h : WF src) :
    drive src (fun sv _ i => (if i = endToken then sv else i, JSVal.undefined))
        JSVal.undefined JSVal.undefined = sampledOf src := by
  rw [drive_eq_replay h, drive_arr_def]
  have hfold : ∀ (l : List JSVal) (sv a : JSVal),
      (l.foldl (foldStep (fun sv _ i =>
          (if i = endToken then sv else i, JSVal.undefined))) (sv, a)).1 =
        l.foldl (fun sv i => if i = endToken then sv else i) sv := by
    intro l
    induction l with
    | nil => intro sv a; rfl
    | cons x xs ih => intro sv a; simp [List.foldl_cons, foldStep, ih]
  simp only [if_pos rfl]
  rw [hfold]
  rfl

/-- `nextTrigger` never inspects the item: driving an item list through
it is driving the `assemble`d list. -/
lemma foldl_asmWrap (g : JSVal → JSVal) (f : JSVal → JSVal → JSVal) :
    ∀ (l : List JSVal) (log : List (JSVal × JSVal)) (a : JSVal),
      l.foldl (foldStep (fun st a i => recordStep f st a (g i))) (log, a) =
        (l.map g).foldl (foldStep (recordStep f)) (log, a) := by
  intro l
  induction l with
  | nil => intro log a; rfl
  | cons x xs ih => intro log a; exact ih (log ++ [(a, g x)]) (f a (g x))

lemma guardRun_append (next : JSVal → JSVal → JSVal) :
    ∀ (xs ys : List JSVal) (g : Bool) (a : JSVal),
      guardRun next g a (xs ++ ys) =
        match guardRun next g a xs with
        | .error e => .error e
        | .ok p => guardRun next p.1 p.2 ys := by
  intro xs
  induction xs with
  | nil => intro ys g a; rfl
  | cons x rest ih =>
      intro ys g a
      show (match nextUntilEnd next g a x with
            | Except.error e => Except.error e
            | Except.ok p => guardRun next p.1 p.2 (rest ++ ys)) = _
      cases hx : nextUntilEnd next g a x with
      | error e => simp [guardRun, hx]
      | ok p => simp [guardRun, hx, ih ys p.1 p.2]

lemma nextUntilEnd_end (next : JSVal → JSVal → JSVal) (a : JSVal) :
    nextUntilEnd next false a endToken = .ok (true, a) := by
  simp [nextUntilEnd]

/-- The sample reducing function `jsAdd` never returns the end token. -/
lemma jsAdd_ne_end (b j : JSVal) : jsAdd b j ≠ endToken := by
  cases b <;> cases j <;> simp [jsAdd, endToken]

/-! ### The claims -/

/-- C1 (counterexample): the end-once property fails for `sample`: its
`nextTrigger` has no end check, so when the trigger source ends the
downstream reducing function is called with `assemble(sampled, end)`
instead of the end token — with the default `assemble` the caller's
reducing function never receives the end token at all (it receives the
last sampled item once more instead of a termination signal). -/
theorem claim_C1_counterexample :
    receivedItems
        (.sampleA (.arr [.num 1]) (.arr [.num 2, .num 3]) (fun sv _ => sv))
        (fun _ i => i) (.num 0) = [.num 1, .num 1, .num 1] ∧
      endToken ∉ receivedItems
        (.sampleA (.arr [.num 1]) (.arr [.num 2, .num 3]) (fun sv _ => sv))
        (fun _ i => i) (.num 0) := by
  constructor
  · rfl
  · decide

/-- C1 (amended): for every source built from arrays, plain values and
the combinators map/filter/reject/take/drop/append/concat/reductions —
with items distinct from the end token, item transforms that never
produce the end token, and `take` counts different from the source
length plus one (the off-by-one case in which `take` sends the end token
twice) — the caller's reducing function receives the end token exactly
once, as the very last call; the same holds for `merge` over such
sources; and the transformation combinator forwards the end token
verbatim to the downstream for every derived operation.  `sample` is
excluded: it transforms the trigger's end signal through `assemble`
instead of forwarding it. -/
theorem claim_C1 :
    (∀ (s : Src), WF s → ∀ (f : JSVal → JSVal → JSVal) (a : JSVal),
        receivedItems s f a = s.emits ++ [endToken] ∧ endToken ∉ s.emits) ∧
      (∀ (srcs : List Src), (∀ s ∈ srcs, WF s) →
        ∀ (f : JSVal → JSVal → JSVal) (a : JSVal),
        (mergeLog srcs f a).map Prod.snd =
            (srcs.map Src.emits).flatten ++ [endToken] ∧
          endToken ∉ (srcs.map Src.emits).flatten) ∧
      (∀ (σ : Type) (act : JSVal → Option JSVal)
        (step : σ → JSVal → JSVal → σ × JSVal) (st : σ) (a : JSVal),
        xformNext act step st a endToken = step st a endToken) := by
  refine ⟨?_, ?_, ?_⟩
  · intro s h f a
    exact ⟨receivedItems_wf h f a, wf_end_free h⟩
  · intro srcs h f a
    constructor
    · rw [mergeLog_wf h]
      simp [accPairs_map_snd]
    · exact join_emits_end_free h
  · intro σ act step st a
    simp [xformNext]

/-- C1 (witness): the amended end-once property at concrete inputs:
a two-item array, and a `merge` of two one-item arrays. -/
theorem claim_C1_witness :
    (receivedItems (.arr [.num 1, .num 2]) jsAdd (.num 0) =
        (Src.arr [.num 1, .num 2]).emits ++ [endToken] ∧
      endToken ∉ (Src.arr [.num 1, .num 2]).emits) ∧
      (mergeLog [Src.arr [.num 4], Src.arr [.num 5]] jsAdd (.num 0)).map Prod.snd =
        ([Src.arr [.num 4], Src.arr [.num 5]].map Src.emits).flatten ++ [endToken] := by
  constructor
  · exact claim_C1.1 (.arr [.num 1, .num 2]) (WF.arr (by decide)) jsAdd (.num 0)
  · refine (claim_C1.2.1 [Src.arr [.num 4], Src.arr [.num 5]] ?_ jsAdd (.num 0)).1
    intro s hs
    rcases List.mem_cons.mp hs with rfl | hs
    · exact WF.arr (by decide)
    · rcases List.mem_cons.mp hs with rfl | hs
      · exact WF.arr (by decide)
      · cases hs

/-- C2: the dispatch order of `accumulate(source, next, initial)`:
a source with a `reduce` method is folded with `next` from `initial` and
then `next` is called exactly once with the fold result and the end
token; a nullish source produces the single call `next(initial, end)`;
any other plain value produces `next(initial, source)` and then
`next(result, end)`, completing synchronously; and an accumulatable
source (here `append`, representative of the combinator-built sources)
is delegated to its own accumulate method with `next` and `initial`. -/
theorem claim_C2 :
    (∀ (l : List JSVal) (f : JSVal → JSVal → JSVal) (a : JSVal),
        driveLog (.arr l) f a = accPairs f a l ++ [(l.foldl f a, endToken)]) ∧
      (∀ (f : JSVal → JSVal → JSVal) (a : JSVal),
        driveLog (.val .null) f a = [(a, endToken)] ∧
          driveLog (.val .undefined) f a = [(a, endToken)]) ∧
      (∀ (v : JSVal) (f : JSVal → JSVal → JSVal) (a : JSVal),
        v ≠ .null → v ≠ .undefined →
        driveLog (.val v) f a = [(a, v), (f a v, endToken)]) ∧
      (∀ (l r : Src) (σ : Type) (step : σ → JSVal → JSVal → σ × JSVal)
        (st : σ) (a : JSVal),
        drive (.append l r) step st a =
          drive l (fun st a i =>
            if i = endToken then (drive r step st a, JSVal.undefined)
            else step st a i) st a) := by
  refine ⟨fun l f a => driveLog_arr f l a, ?_, ?_, ?_⟩
  · intro f a
    exact ⟨rfl, rfl⟩
  · intro v f a h1 h2
    unfold driveLog
    rw [drive_val_def, if_neg (by simp [h1, h2])]
    rfl
  · intro l r σ step st a
    rfl

/-- C2 (witness): the dispatcher at concrete inputs: the array
`[0, 1, 2, 3]` summed from seed `0` (fold result `6`, matching the
library's own test), and the plain value `3`. -/
theorem claim_C2_witness :
    driveLog (.arr [.num 0, .num 1, .num 2, .num 3]) jsAdd (.num 0) =
        accPairs jsAdd (.num 0) [.num 0, .num 1, .num 2, .num 3] ++
          [([JSVal.num 0, .num 1, .num 2, .num 3].foldl jsAdd (.num 0), endToken)] ∧
      driveLog (.val (.num 3)) jsAdd (.num 0) =
        [(.num 0, .num 3), (jsAdd (.num 0) (.num 3), endToken)] := by
  constructor
  · exact claim_C2.1 [.num 0, .num 1, .num 2, .num 3] jsAdd (.num 0)
  · exact claim_C2.2.2.1 (.num 3) jsAdd (.num 0) (by decide) (by decide)

/-- C3: the hub's single-drive, multi-consumer property:
(1) over any sequence of accumulation requests the wrapped source is
driven at most once; (2) dispatching non-end items maps each consumer to
its own reducing function folded from its own accumulated value, skipping
every item from the moment the function returns the end token — so
consumers observe the items independently and an ended consumer receives
no further items; (3) an ended consumer entry is left completely
untouched by a dispatch (its reducing function is not called); (4) every
consumer that has not ended receives the end token through its own
reducing function; (5) the consumer list is cleared when the source
signals end. -/
theorem claim_C3 :
    (∀ (ncs : List Consumer), (hubAttachRun hubInit ncs).2 ≤ 1) ∧
      (∀ (items : List JSVal), endToken ∉ items → ∀ (cs : List Consumer),
        hubRun cs items =
          cs.map (fun c => ⟨c.next, consumerFold c.next c.accumulated items⟩)) ∧
      (∀ (item : JSVal) (c : Consumer), c.accumulated = endToken →
        dispatchToConsumer item c = c) ∧
      (∀ (c : Consumer), c.accumulated ≠ endToken →
        (dispatchToConsumer endToken c).accumulated =
          c.next c.accumulated endToken) ∧
      (∀ (cs : List Consumer) (xs : List JSVal),
        hubRun cs (xs ++ [endToken]) = []) := by
  refine ⟨hubAttachRun_starts, hubRun_items, ?_, ?_, ?_⟩
  · intro item c hc
    simp [dispatchToConsumer, hc]
  · intro c hc
    simp [dispatchToConsumer, hc]
  · intro cs xs
    simp [hubRun, List.foldl_append, nextDispatch]

/-- C3 (witness): the specification's scenario: two consumers attached to
a hub over a 4-item source; at most one drive of the source; the consumer
that returns the end token after its second item ends with the end token
as its accumulated value and is then skipped, while the other counts all
4 items; after its second item the surviving consumer receives the end
token too; and the list is cleared by the end signal. -/
theorem claim_C3_witness :
    (hubAttachRun hubInit [hubCons1, hubCons2]).2 ≤ 1 ∧
      (hubRun [hubCons1, hubCons2] hubItems).map Consumer.accumulated =
        [endToken, .num 4] ∧
      dispatchToConsumer (.num 9) ⟨hubCons1.next, endToken⟩ =
        ⟨hubCons1.next, endToken⟩ ∧
      (dispatchToConsumer endToken ⟨hubCons2.next, .num 4⟩).accumulated =
        .num 5 ∧
      hubRun [hubCons1, hubCons2] (hubItems ++ [endToken]) = [] := by
  refine ⟨claim_C3.1 [hubCons1, hubCons2], ?_, ?_, ?_,
    claim_C3.2.2.2.2 [hubCons1, hubCons2] hubItems⟩
  · rw [claim_C3.2.1 hubItems (by decide) [hubCons1, hubCons2]]
    decide
  · exact claim_C3.2.2.1 (.num 9) ⟨hubCons1.next, endToken⟩ rfl
  · rw [claim_C3.2.2.2.1 ⟨hubCons2.next, .num 4⟩ (by decide)]
    decide

/-- C4: the open-count invariant of `merge(sourceOfSources)`:
(1) starting from any count `o ≥ 1` (the outer sequence contributes the
initial 1), the outer fold — which increments the count per inner source
opened and decrements it per inner end signal — returns with the count
restored to `o`, and the downstream reducing function receives exactly
the inner items during the fold, never the end token (the count never
reaches zero early); (2) over a complete merge drive the downstream
receives the end token exactly once, as the very last call, after all
inner sources and the outer source have ended; (3) `forward` reacts to an
end signal by decrementing the count, and sends the downstream the end
token precisely when the count reaches zero. -/
theorem claim_C4 :
    (∀ (srcs : List Src), (∀ s ∈ srcs, WF s) → ∀ (o : Int), 1 ≤ o →
        ∀ (f : JSVal → JSVal → JSVal) (a : JSVal) (log : List (JSVal × JSVal)),
        mergeFold srcs (recordStep f) (o, a, log) =
            (o, (srcs.map Src.emits).flatten.foldl f a,
              log ++ accPairs f a (srcs.map Src.emits).flatten) ∧
          endToken ∉ (srcs.map Src.emits).flatten) ∧
      (∀ (srcs : List Src), (∀ s ∈ srcs, WF s) →
        ∀ (f : JSVal → JSVal → JSVal) (a : JSVal),
        (mergeLog srcs f a).map Prod.snd =
          (srcs.map Src.emits).flatten ++ [endToken]) ∧
      (∀ (σ : Type) (step : σ → JSVal → JSVal → σ × JSVal) (o : Int)
        (acc : JSVal) (st : σ) (a0 : JSVal),
        mergeForward step (o, acc, st) a0 endToken =
          if o - 1 = 0 then
            ((o - 1, acc, (step st acc endToken).1), (step st acc endToken).2)
          else ((o - 1, acc, st), acc)) := by
  refine ⟨?_, ?_, ?_⟩
  · intro srcs h o ho f a log
    refine ⟨?_, join_emits_end_free h⟩
    rw [mergeFold_open (recordStep f) srcs h o ho a log, foldl_recordStep]
  · intro srcs h f a
    rw [mergeLog_wf h]
    simp [accPairs_map_snd]
  · intro σ step o acc st a0
    simp [mergeForward]

/-- C4 (witness): the open-count invariant at a concrete merge of two
inner arrays with the recording reducing function: the fold returns with
the count restored to 1 and the log holding exactly the three inner
items; the complete drive delivers the items and then the end token
exactly once. -/
theorem claim_C4_witness :
    mergeFold [Src.arr [.num 1, .num 2], Src.arr [.num 3]]
        (recordStep jsAdd) (1, .num 0, []) =
      (1, .num 6, [(.num 0, .num 1), (.num 1, .num 2), (.num 3, .num 3)]) ∧
      (mergeLog [Src.arr [.num 1, .num 2], Src.arr [.num 3]] jsAdd
        (.num 0)).map Prod.snd = [.num 1, .num 2, .num 3, endToken] := by
  have hwf : ∀ s ∈ [Src.arr [JSVal.num 1, .num 2], Src.arr [.num 3]], WF s := by
    intro s hs
    rcases List.mem_cons.mp hs with rfl | hs
    · exact WF.arr (by decide)
    · rcases List.mem_cons.mp hs with rfl | hs
      · exact WF.arr (by decide)
      · cases hs
  constructor
  · rw [(claim_C4.1 [Src.arr [.num 1, .num 2], Src.arr [.num 3]] hwf 1 le_rfl
      jsAdd (.num 0) []).1]
    decide
  · rw [claim_C4.2.1 [Src.arr [.num 1, .num 2], Src.arr [.num 3]] hwf
      jsAdd (.num 0)]
    decide

/-- C5: order preservation for `append`/`concat`: driving
`append(left, right)` makes the downstream reducing function receive
`left`'s items, then `right`'s items — with the single shared accumulated
value threaded straight through from the last `left` call into the first
`right` call — and then the end token once; `concat` of a list of inner
sources delivers the concatenation of the inner item lists in outer
order; in particular `concat([[1,2,3],['a','b','c']])` driven to
completion yields `1,2,3,'a','b','c'` and then the end token, for every
reducing function and seed. -/
theorem claim_C5 :
    (∀ (l r : Src), WF l → WF r → ∀ (f : JSVal → JSVal → JSVal) (a : JSVal),
        driveLog (.append l r) f a =
          accPairs f a (l.emits ++ r.emits) ++
            [((l.emits ++ r.emits).foldl f a, endToken)]) ∧
      (∀ (srcs : List Src), (∀ s ∈ srcs, WF s) →
        ∀ (f : JSVal → JSVal → JSVal) (a : JSVal),
        receivedItems (concatSrc srcs) f a =
          (srcs.map Src.emits).flatten ++ [endToken]) ∧
      (∀ (f : JSVal → JSVal → JSVal) (a : JSVal),
        receivedItems (concatSrc [.arr [.num 1, .num 2, .num 3],
            .arr [.str "a", .str "b", .str "c"]]) f a =
          [.num 1, .num 2, .num 3, .str "a", .str "b", .str "c", endToken]) := by
  have hwfc : ∀ s ∈ [Src.arr [JSVal.num 1, .num 2, .num 3],
      Src.arr [.str "a", .str "b", .str "c"]], WF s := by
    intro s hs
    rcases List.mem_cons.mp hs with rfl | hs
    · exact WF.arr (by decide)
    · rcases List.mem_cons.mp hs with rfl | hs
      · exact WF.arr (by decide)
      · cases hs
  refine ⟨?_, ?_, ?_⟩
  · intro l r hl hr f a
    exact driveLog_wf (WF.append hl hr) f a
  · intro srcs h f a
    rw [receivedItems_wf (wf_concatSrc h) f a, emits_concatSrc]
  · intro f a
    rw [receivedItems_wf (wf_concatSrc hwfc) f a]
    rfl

/-- C5 (witness): `append` of two one-item arrays with the summing
reducing function: the right source is driven with the accumulated value
reached at the left source's end, and the end token arrives last,
exactly once; plus the concrete concat sequence. -/
theorem claim_C5_witness :
    driveLog (.append (.arr [.num 1]) (.arr [.num 2])) jsAdd (.num 0) =
        accPairs jsAdd (.num 0)
            ((Src.arr [.num 1]).emits ++ (Src.arr [.num 2]).emits) ++
          [(((Src.arr [.num 1]).emits ++ (Src.arr [.num 2]).emits).foldl
            jsAdd (.num 0), endToken)] ∧
      receivedItems (concatSrc [.arr [.num 1, .num 2, .num 3],
          .arr [.str "a", .str "b", .str "c"]]) jsAdd (.num 0) =
        [.num 1, .num 2, .num 3, .str "a", .str "b", .str "c", endToken] := by
  constructor
  · exact claim_C5.1 (.arr [.num 1]) (.arr [.num 2])
      (WF.arr (by decide)) (WF.arr (by decide)) jsAdd (.num 0)
  · exact claim_C5.2.2 jsAdd (.num 0)

/-- C6: take/drop boundary behaviour: driving `take([0,1,2,3,4], 2)` with
the summing reducing function from seed 0 calls it with items 0 and 1 and
then the end token with accumulated sum 1 — and with nothing after the
end token, even though the upstream array keeps folding; driving
`drop([0,1,2,3,4], 2)` calls it with 2, 3, 4 and then the end token with
accumulated sum 9. -/
theorem claim_C6 :
    driveLog (takeSrc (.arr [.num 0, .num 1, .num 2, .num 3, .num 4]) 2)
        jsAdd (.num 0) =
      [(.num 0, .num 0), (.num 0, .num 1), (.num 1, endToken)] ∧
      driveLog (dropSrc (.arr [.num 0, .num 1, .num 2, .num 3, .num 4]) 2)
        jsAdd (.num 0) =
      [(.num 0, .num 2), (.num 2, .num 3), (.num 5, .num 4),
        (.num 9, endToken)] := by
  constructor
  · rfl
  · rfl

/-- C7 (counterexample): `sample`'s termination claim fails: when the
trigger source (two items) signals its end token, the downstream reducing
function does not receive the end token — `nextTrigger` has no end check,
so the end signal is passed through `assemble` (the default returns the
sampled item), and the combined sequence never delivers a termination
signal to the caller. -/
theorem claim_C7_counterexample :
    receivedItems (sampleSrc (.arr [.num 7]) (.arr [.bool true, .bool false]))
        (fun _ i => i) (.num 0) = [.num 7, .num 7, .num 7] ∧
      endToken ∉ receivedItems
        (sampleSrc (.arr [.num 7]) (.arr [.bool true, .bool false]))
        (fun _ i => i) (.num 0) := by
  constructor
  · rfl
  · decide

/-- C7 (amended): for `sample(source, triggers, assemble)` over
well-formed sources, every non-end trigger item causes exactly one
downstream emission of `assemble(lastSourceItem, triggerItem)`, and the
source's own end token is not specially handled (the last non-end source
item stays sampled); but when `triggers` signals its end token the
combined sequence does not terminate with the end token: the downstream
reducing function is called once more with
`assemble(lastSourceItem, endToken)` — the end token reaches the caller
only if `assemble` passes it through. -/
theorem claim_C7 :
    ∀ (src trig : Src), WF src → WF trig →
      ∀ (asm : JSVal → JSVal → JSVal) (f : JSVal → JSVal → JSVal) (a : JSVal),
      receivedItems (.sampleA src trig asm) f a =
        trig.emits.map (asm (sampledOf src)) ++
          [asm (sampledOf src) endToken] := by
  intro src trig hsrc htrig asm f a
  unfold receivedItems driveLog
  rw [drive_sampleA_def]
  simp only [drive_sampled hsrc]
  rw [drive_eq_replay htrig, drive_arr_def,
    foldl_asmWrap (asm (sampledOf src)) f, foldl_recordStep]
  simp [recordStep, accPairs_map_snd]

/-- C7 (witness): `sample` at concrete inputs with an `assemble` that
adds the sampled item and the trigger item. -/
theorem claim_C7_witness :
    receivedItems (.sampleA (.arr [.num 7]) (.arr [.num 8])
        (fun sv t => jsAdd sv t)) jsAdd (.num 0) =
      (Src.arr [.num 8]).emits.map
          ((fun sv t => jsAdd sv t) (sampledOf (.arr [.num 7]))) ++
        [(fun sv t => jsAdd sv t) (sampledOf (.arr [.num 7])) endToken] :=
  claim_C7 (.arr [.num 7]) (.arr [.num 8]) (WF.arr (by decide))
    (WF.arr (by decide)) (fun sv t => jsAdd sv t) jsAdd (.num 0)

/-- C8: the guard logic of `accumulatesOnce` (`nextUntilEnd` plus the
entry check) behaves as claimed: (1) an accumulation attempt while a run
is in progress or after the source ended throws
"Accumulation attempted after source was ended"; (2) any call after the
source ended throws "Source attempted to send item after it ended";
(3) the ended flag is set exactly by an incoming end token or by the
downstream reducing function returning the end token; (4) an upstream
that sends any value after its end token hits the item-after-end
exception; (5) under correct single-use driving — items distinct from the
end token, followed by one end token, with a downstream that does not
request early termination — no exception is raised; (6) a first
accumulation passes the entry check. -/
theorem claim_C8 :
    (∀ (e ac : Bool), e = true ∨ ac = true →
        accumulateOnceEntry e ac =
          .error "Accumulation attempted after source was ended") ∧
      (∀ (next : JSVal → JSVal → JSVal) (a i : JSVal),
        nextUntilEnd next true a i =
          .error "Source attempted to send item after it ended") ∧
      (∀ (next : JSVal → JSVal → JSVal) (g : Bool) (a i : JSVal)
        (g' : Bool) (a' : JSVal),
        nextUntilEnd next g a i = .ok (g', a') →
        (i = endToken ∨ a' = endToken) → g' = true) ∧
      (∀ (next : JSVal → JSVal → JSVal), (∀ b j, next b j ≠ endToken) →
        ∀ (xs : List JSVal), endToken ∉ xs → ∀ (a y : JSVal) (ys : List JSVal),
        guardRun next false a (xs ++ endToken :: y :: ys) =
          .error "Source attempted to send item after it ended") ∧
      (∀ (next : JSVal → JSVal → JSVal), (∀ b j, next b j ≠ endToken) →
        ∀ (xs : List JSVal), endToken ∉ xs → ∀ (a : JSVal),
        guardRun next false a (xs ++ [endToken]) =
          .ok (true, xs.foldl next a)) ∧
      accumulateOnceEntry false false = .ok true := by
  refine ⟨?_, ?_, ?_, ?_, ?_, rfl⟩
  · intro e ac h
    rcases h with rfl | rfl
    · simp [accumulateOnceEntry]
    · simp [accumulateOnceEntry]
  · intro next a i
    rfl
  · intro next g a i g' a' hok hend
    cases g with
    | true => simp [nextUntilEnd] at hok
    | false =>
        simp only [nextUntilEnd, Bool.false_eq_true, if_false] at hok
        injection hok with hok
        injection hok with h1 h2
        subst h1
        subst h2
        rcases hend with h | h
        · simp [h]
        · rw [h]
          simp
  · intro next hnext xs hxs a y ys
    rw [guardRun_append, guardRun_clean next hnext xs hxs a]
    rfl
  · intro next hnext xs hxs a
    rw [guardRun_append, guardRun_clean next hnext xs hxs a]
    rfl

/-- C8 (witness): the guard at concrete inputs: a double-accumulation
attempt throws, an item after the end token throws, and a clean run of
one item plus the end token raises no exception and marks the source
ended. -/
theorem claim_C8_witness :
    accumulateOnceEntry true false =
        .error "Accumulation attempted after source was ended" ∧
      guardRun jsAdd false (.num 0) ([.num 1] ++ endToken :: .num 2 :: []) =
        .error "Source attempted to send item after it ended" ∧
      guardRun jsAdd false (.num 0) ([.num 1] ++ [endToken]) =
        .ok (true, [JSVal.num 1].foldl jsAdd (.num 0)) := by
  refine ⟨claim_C8.1 true false (Or.inl rfl), ?_, ?_⟩
  · exact claim_C8.2.2.2.1 jsAdd jsAdd_ne_end [.num 1] (by decide)
      (.num 0) (.num 2) []
  · exact claim_C8.2.2.2.2.1 jsAdd jsAdd_ne_end [.num 1] (by decide) (.num 0)

/-- C9 (counterexample): the end token is the plain string
`'Token for end of accumulation'`, and `===` compares strings by their
characters, so a legitimate data string with the same characters collides
with the termination signal: a source emitting it delivers what the whole
pipeline treats as the end token — and the dispatcher then sends its own
end token as well, so the caller's reducing function receives the end
token twice. -/
theorem claim_C9_counterexample :
    jsStrictEq (.str "Token for end of accumulation") endToken = true ∧
      receivedItems (.arr [.str "Token for end of accumulation"])
        (fun a _ => a) (.num 0) = [endToken, endToken] := by
  constructor
  · rfl
  · rfl

/-- C9 (amended): the end token is the string
`'Token for end of accumulation'` compared with `===`, which for strings
is comparison by value, not by object identity: it is distinct from every
value except a string with exactly those characters, and a string item
with those characters is indistinguishable from the termination signal. -/
theorem claim_C9 :
    endToken = .str "Token for end of accumulation" ∧
      (∀ (v : JSVal),
        (∀ s, v = .str s → s ≠ "Token for end of accumulation") →
        jsStrictEq v endToken = false) ∧
      (∀ (s : String),
        jsStrictEq (.str s) endToken = true ↔
          s = "Token for end of accumulation") := by
  refine ⟨rfl, ?_, ?_⟩
  · intro v hv
    cases v with
    | num x => rfl
    | bool b => rfl
    | null => rfl
    | undefined => rfl
    | str s =>
        have hs := hv s rfl
        simp [jsStrictEq, endToken, hs]
  · intro s
    simp [jsStrictEq, endToken]

/-- C9 (witness): a number is distinct from the end token. -/
theorem claim_C9_witness : jsStrictEq (.num 7) endToken = false :=
  claim_C9.2.1 (.num 7) (fun _ h => nomatch h)

/-- C10: `throttle(source, ms)`: the eager accumulation queues the items
and then the end token; every call the timer drain makes to the
downstream reducing function passes the captured initial value as the
accumulated argument (the downstream's return value is discarded, so the
accumulated value never advances); the queue and timer evolution is
completely independent of the downstream reducing function — in
particular a downstream returning the end token stops neither the drain
nor the timer; and the timer is cancelled exactly when the upstream's end
token is popped from the queue. -/
theorem claim_C10 :
    (∀ (s : Src), WF s → throttleQueue s = s.emits ++ [endToken]) ∧
      (∀ (f : JSVal → JSVal → JSVal) (initial : JSVal) (k : Nat)
        (q : List JSVal) (tmr : Bool) (log : List (JSVal × JSVal)),
        (throttleDrain (recordStep f) initial k (q, tmr, log)).2.2 =
          log ++ (q.take k).map (fun i => (initial, i))) ∧
      (∀ (σ₁ σ₂ : Type) (step₁ : σ₁ → JSVal → JSVal → σ₁ × JSVal)
        (step₂ : σ₂ → JSVal → JSVal → σ₂ × JSVal) (i₁ i₂ : JSVal)
        (k : Nat) (q : List JSVal) (tmr : Bool) (st₁ : σ₁) (st₂ : σ₂),
        (throttleDrain step₁ i₁ k (q, tmr, st₁)).1 =
            (throttleDrain step₂ i₂ k (q, tmr, st₂)).1 ∧
          (throttleDrain step₁ i₁ k (q, tmr, st₁)).2.1 =
            (throttleDrain step₂ i₂ k (q, tmr, st₂)).2.1) ∧
      (∀ (σ : Type) (step : σ → JSVal → JSVal → σ × JSVal)
        (initial : JSVal) (k : Nat) (q : List JSVal) (st : σ),
        (throttleDrain step initial k (q, true, st)).2.1 =
          !(q.take k).contains endToken) := by
  refine ⟨fun s h => throttleQueue_wf h, ?_, ?_, ?_⟩
  · intro f initial k q tmr log
    exact throttleDrain_log f initial k q tmr log
  · intro σ₁ σ₂ step₁ step₂ i₁ i₂ k q tmr st₁ st₂
    exact throttleDrain_indep step₁ step₂ i₁ i₂ k q tmr st₁ st₂
  · intro σ step initial k q st
    exact throttleDrain_timer step initial k q st

/-- C10 (witness): the throttle queue of a concrete two-item array holds
the items and then the end token. -/
theorem claim_C10_witness :
    throttleQueue (.arr [.num 5, .num 6]) =
      (Src.arr [.num 5, .num 6]).emits ++ [endToken] :=
  claim_C10.1 (.arr [.num 5, .num 6]) (WF.arr (by decide))

example :
    drive (.takeA 2 (.arr [.num 0, .num 1, .num 2, .num 3, .num 4]))
      (fun (log : List (JSVal × JSVal)) a i => (log ++ [(a, i)], jsAdd a i)) [] (.num 0)
      = [(.num 0, .num 0), (.num 0, .num 1), (.num 1, endToken)] := by decide
